import Mathlib

/-!
Verification development for the `QuantumProteinAnalyzer` command-line tool
(`qiskit_cli.py`).  The tool's own logic — input validation, the
tensor-to-Hamiltonian builder `create_polarity_operator`, and the circuit
builder `create_protein_quantum_circuit` — is shallowly embedded below.
Numeric scalars are modelled by `ℚ`, Pauli labels by `List Char` (the Python
code builds them as strings over the characters `I`, `X`, `Y`, `Z`), the
`SparsePauliOp` produced by `SparsePauliOp.from_list` by the underlying term
list, and a `QuantumCircuit` by its gate sequence.  Methods that in Python
mutate `self` are embedded as functions from the analyzer state to a result
paired with the successor state; a raised `ValueError` becomes an
`Except.error` paired with the unchanged input state (the Python methods
perform no mutation before their `raise` statements).
-/

/-- A raised Python `ValueError`, carrying its message. -/
inductive QPError where
  | valueError (msg : String)
  deriving DecidableEq, Repr

/-- The polarity tensor `s_tensor : np.ndarray`: a 2-D array with its shape
and an entry function (row, column). -/
structure STensor where
  dim0 : ℕ
  dim1 : ℕ
  entry : ℕ → ℕ → ℚ

/-- One Pauli term `(pauli_str, coeff)` as appended to `pauli_terms`. -/
abbrev PauliTerm := List Char × ℚ

/-- A gate appended to the `QuantumCircuit` by
`create_protein_quantum_circuit`.  Rotation angles are rational multiples of
π: `rxx q (pi/4)` is recorded as `rxx (1/4)`. -/
inductive Gate where
  | x (q : ℕ)
  | h (q : ℕ)
  | rxx (piFactor : ℚ) (a b : ℕ)
  | rzz (piFactor : ℚ) (a b : ℕ)
  | swap (a b : ℕ)
  | cx (a b : ℕ)
  | barrier
  | measure_all
  deriving DecidableEq, Repr

/-- The circuit built by `QuantumCircuit(num_qubits, num_qubits)` followed by
the gate applications of `create_protein_quantum_circuit`. -/
structure Circuit where
  nqubits : ℕ
  nclbits : ℕ
  gates : List Gate
  deriving DecidableEq, Repr

/-- One entry of `results_history` (the wall-clock `simulation_time` float is
outside the model). -/
structure ResultRecord where
  counts : List (List Char × ℕ)
  shots : ℕ
  circuit_depth : ℕ
  nqubits : ℕ
  deriving DecidableEq, Repr

/-- The mutable fields of a `QuantumProteinAnalyzer` instance (the `simulator`
field is an opaque external object that the embedded methods never touch). -/
structure AnalyzerState where
  verbose : Bool
  current_circuit : Option Circuit
  current_operator : Option (List PauliTerm)
  results_history : List ResultRecord
  deriving DecidableEq, Repr

/-- State of a freshly constructed `QuantumProteinAnalyzer(verbose=True)`. -/
def initState : AnalyzerState :=
  { verbose := true
    current_circuit := none
    current_operator := none
    results_history := [] }

/-- The negligibility threshold `1e-9` of `create_polarity_operator`. -/
def threshold : ℚ := 1 / 1000000000

/-- The message of the non-square-tensor `ValueError`. -/
def squareMsg : String := "El tensor de polaridad debe ser una matriz cuadrada."

/-- The message of the too-small-tensor `ValueError`. -/
def sizeMsg : String := "El tensor debe ser al menos de 2x2 para definir 1 qubit."

/-- The message of the out-of-range qubit-count `ValueError`. -/
def qubitRangeMsg : String := "El número de qubits debe estar entre 2 y 10 para este modelo."

/-- The list `paulis = ['X', 'Y', 'Z']`. -/
def paulis : List Char := ['X', 'Y', 'Z']

/-- The single-qubit label `'I' * i + pauli_op + 'I' * (num_qubits - 1 - i)`. -/
def singleLabel (n i : ℕ) (p : Char) : List Char :=
  List.replicate i 'I' ++ p :: List.replicate (n - 1 - i) 'I'

/-- The two-qubit label
`'I' * i + 'Z' + 'I' * (j - i - 1) + 'Z' + 'I' * (num_qubits - 1 - j)`. -/
def pairLabel (n i j : ℕ) : List Char :=
  List.replicate i 'I' ++
    'Z' :: (List.replicate (j - i - 1) 'I' ++ 'Z' :: List.replicate (n - 1 - j) 'I')

/-- The single-qubit loop of `create_polarity_operator`:
`for i in range(num_qubits): for j, pauli_op in enumerate(paulis): ...`,
appending `(pauli_str, coeff)` whenever `abs(coeff) > 1e-9`. -/
def singleTerms (S : STensor) (lam : ℚ) (n : ℕ) : List PauliTerm :=
  (List.range n).flatMap fun i =>
    paulis.filterMap fun p =>
      let coeff := lam * S.entry (i + 1) (i + 1)
      if threshold < |coeff| then some (singleLabel n i p, coeff) else none

/-- The two-qubit loop of `create_polarity_operator`:
`for i in range(num_qubits): for j in range(i + 1, num_qubits): ...`,
appending a ZZ term whenever `abs(coeff) > 1e-9`. -/
def pairTerms (S : STensor) (lam : ℚ) (n : ℕ) : List PauliTerm :=
  (List.range n).flatMap fun i =>
    (List.range' (i + 1) (n - (i + 1))).filterMap fun j =>
      let coeff := lam * S.entry (i + 1) (j + 1)
      if threshold < |coeff| then some (pairLabel n i j, coeff) else none

/-- The method `QuantumProteinAnalyzer.create_polarity_operator(self, s_tensor, lambda_scalar)`:
validates the tensor, builds `pauli_terms`, and either returns the zero
sentinel `SparsePauliOp('I' * num_qubits, 0)` without touching `self`, or
stores the built operator in `self.current_operator` and returns it. -/
def create_polarity_operator (st : AnalyzerState) (S : STensor) (lam : ℚ) :
    Except QPError (List PauliTerm) × AnalyzerState :=
  let num_qubits := S.dim0 - 1
  if S.dim0 ≠ S.dim1 then
    (.error (.valueError squareMsg), st)
  else if S.dim0 < 2 then
    (.error (.valueError sizeMsg), st)
  else
    let pauli_terms := singleTerms S lam num_qubits ++ pairTerms S lam num_qubits
    if pauli_terms = [] then
      (.ok [(List.replicate num_qubits 'I', 0)], st)
    else
      (.ok pauli_terms, { st with current_operator := some pauli_terms })

/-- The method `QuantumProteinAnalyzer.create_protein_quantum_circuit(self,
num_qubits, custom_gates)`: validates `2 <= num_qubits <= 10`, builds the fixed gate
sequence, stores the circuit in `self.current_circuit` and returns it. -/
def create_protein_quantum_circuit (st : AnalyzerState) (num_qubits : ℤ)
    (custom_gates : Bool) : Except QPError Circuit × AnalyzerState :=
  if ¬ (2 ≤ num_qubits ∧ num_qubits ≤ 10) then
    (.error (.valueError qubitRangeMsg), st)
  else
    let n := num_qubits.toNat
    let initGates : List Gate :=
      [.x 0, .h 1] ++ (if 3 ≤ n then [.x 2] else []) ++
        (if 4 ≤ n then [.h 3] else []) ++ (if 5 ≤ n then [.x 4] else [])
    let customGates : List Gate :=
      if custom_gates then
        .barrier ::
          ((List.range (n - 1)).flatMap fun i =>
            [.rxx (1/4) i (i + 1), .rzz (1/8) i (i + 1)]) ++
          .barrier :: (if 4 ≤ n then [.swap 0 (n - 1)] else []) ++
          .barrier :: ((List.range (n - 1)).map fun i => .cx i (i + 1))
      else []
    let qc : Circuit := ⟨n, n, initGates ++ customGates ++ [.measure_all]⟩
    (.ok qc, { st with current_circuit := some qc })

/-- Number of non-identity characters of a Pauli label. -/
def countNonI (l : List Char) : ℕ :=
  (l.filter fun c => c ≠ 'I').length

/-- Predicate `isSingleAt i l`: holds when the label `l` acts non-trivially on qubit `i`
and trivially everywhere else (a single-qubit term at position `i`). -/
def isSingleAt (i : ℕ) (l : List Char) : Bool :=
  countNonI l = 1 ∧ l.getD i 'I' ≠ 'I'

/-- Concrete 2×2 tensor with sole interacting entry `S[1][1] = 1`. -/
def diagTensor2 : STensor :=
  ⟨2, 2, fun a b => if a = 1 ∧ b = 1 then 1 else 0⟩

/-- Concrete 2×2 all-zero tensor. -/
def zeroTensor2 : STensor := ⟨2, 2, fun _ _ => 0⟩

/-- Concrete 3×3 tensor with zero diagonal and `S[1][2] = S[2][1] = 1`. -/
def offTensor3 : STensor :=
  ⟨3, 3, fun a b => if a = 1 ∧ b = 2 ∨ a = 2 ∧ b = 1 then 1 else 0⟩

/-- Concrete non-square 1×2 tensor. -/
def rectTensor : STensor := ⟨1, 2, fun _ _ => 0⟩

/-- Concrete square 1×1 tensor (too small). -/
def tinyTensor : STensor := ⟨1, 1, fun _ _ => 0⟩

/-! ### Helper lemmas on labels and list combinators -/

lemma getD_replicate_self (c : Char) (m k : ℕ) :
    (List.replicate m c).getD k c = c := by
  simp only [List.getD_eq_getElem?_getD, List.getElem?_replicate]
  split <;> rfl

lemma getD_replicate_of_lt {c d : Char} {m k : ℕ} (h : k < m) :
    (List.replicate m c).getD k d = c := by
  simp [List.getD_eq_getElem?_getD, List.getElem?_replicate, h]

lemma filter_neI_replicate (m : ℕ) :
    ((List.replicate m 'I').filter fun c => c ≠ 'I') = [] := by
  apply List.filter_replicate_of_neg
  simp

lemma countNonI_replicate (m : ℕ) : countNonI (List.replicate m 'I') = 0 := by
  simp [countNonI, filter_neI_replicate]

lemma countNonI_singleLabel {p : Char} (hp : p ≠ 'I') (n i : ℕ) :
    countNonI (singleLabel n i p) = 1 := by
  simp [countNonI, singleLabel, List.filter_append, filter_neI_replicate, hp]

lemma countNonI_pairLabel (n i j : ℕ) : countNonI (pairLabel n i j) = 2 := by
  simp [countNonI, pairLabel, List.filter_append, filter_neI_replicate]

lemma singleLabel_length {n i : ℕ} (h : i < n) (p : Char) :
    (singleLabel n i p).length = n := by
  simp only [singleLabel, List.length_append, List.length_replicate, List.length_cons]
  omega

lemma pairLabel_length {n i j : ℕ} (hij : i < j) (hj : j < n) :
    (pairLabel n i j).length = n := by
  simp only [pairLabel, List.length_append, List.length_replicate, List.length_cons]
  omega

lemma singleLabel_getD_self (n i : ℕ) (p : Char) :
    (singleLabel n i p).getD i 'I' = p := by
  rw [singleLabel, List.getD_append_right _ _ _ _ (by simp)]
  simp

lemma getD_cons_pos {α : Type} {a d : α} {l : List α} {k : ℕ} (h : 0 < k) :
    (a :: l).getD k d = l.getD (k - 1) d := by
  cases k with
  | zero => omega
  | succ m => simp

lemma singleLabel_getD_ne {k i : ℕ} (hne : k ≠ i) (n : ℕ) (p : Char) :
    (singleLabel n i p).getD k 'I' = 'I' := by
  rcases Nat.lt_or_ge k i with h | h
  · rw [singleLabel, List.getD_append _ _ _ _ (by simpa using h)]
    exact getD_replicate_of_lt h
  · have h' : i < k := lt_of_le_of_ne h (Ne.symm hne)
    rw [singleLabel, List.getD_append_right _ _ _ _ (by simpa using h),
      List.length_replicate, getD_cons_pos (by omega)]
    exact getD_replicate_self _ _ _

lemma pairLabel_getD_fst (n i j : ℕ) :
    (pairLabel n i j).getD i 'I' = 'Z' := by
  rw [pairLabel, List.getD_append_right _ _ _ _ (by simp)]
  simp

lemma pairLabel_getD_snd {i j : ℕ} (hij : i < j) (n : ℕ) :
    (pairLabel n i j).getD j 'I' = 'Z' := by
  rw [pairLabel, List.getD_append_right _ _ _ _ (by simp; omega),
    List.length_replicate, getD_cons_pos (by omega),
    List.getD_append_right _ _ _ _ (by simp)]
  simp

lemma pairLabel_getD_other {k i j : ℕ} (hij : i < j) (h1 : k ≠ i) (h2 : k ≠ j)
    (n : ℕ) : (pairLabel n i j).getD k 'I' = 'I' := by
  rcases Nat.lt_or_ge k i with h | h
  · rw [pairLabel, List.getD_append _ _ _ _ (by simpa using h)]
    exact getD_replicate_of_lt h
  · have h' : i < k := lt_of_le_of_ne h (Ne.symm h1)
    rw [pairLabel, List.getD_append_right _ _ _ _ (by simpa using h),
      List.length_replicate, getD_cons_pos (by omega)]
    rcases Nat.lt_or_ge (k - i - 1) (j - i - 1) with hlt | hge
    · rw [List.getD_append _ _ _ _ (by simpa using hlt)]
      exact getD_replicate_of_lt hlt
    · have hjk : j < k := by omega
      rw [List.getD_append_right _ _ _ _ (by simpa using hge),
        List.length_replicate, getD_cons_pos (by omega)]
      exact getD_replicate_self _ _ _

lemma pairLabel_inj {n i j i' j' : ℕ} (hij : i < j) (_hj : j < n)
    (hij' : i' < j') (_hj' : j' < n)
    (h : pairLabel n i j = pairLabel n i' j') : i = i' ∧ j = j' := by
  have hfst : (pairLabel n i' j').getD i 'I' = 'Z' := by
    rw [← h]; exact pairLabel_getD_fst n i j
  have hsnd : (pairLabel n i' j').getD j 'I' = 'Z' := by
    rw [← h]; exact pairLabel_getD_snd hij n
  have hi : i = i' ∨ i = j' := by
    by_contra hc
    push_neg at hc
    rw [pairLabel_getD_other hij' hc.1 hc.2] at hfst
    exact absurd hfst (by decide)
  have hjd : j = i' ∨ j = j' := by
    by_contra hc
    push_neg at hc
    rw [pairLabel_getD_other hij' hc.1 hc.2] at hsnd
    exact absurd hsnd (by decide)
  rcases hi with hi | hi <;> rcases hjd with hjd | hjd <;> omega

lemma flatMap_congr_mem {α β : Type} {l : List α} {f g : α → List β}
    (h : ∀ a ∈ l, f a = g a) : l.flatMap f = l.flatMap g := by
  induction l with
  | nil => rfl
  | cons x xs ih =>
      simp only [List.flatMap_cons]
      rw [h x (by simp), ih fun a ha => h a (List.mem_cons_of_mem _ ha)]

lemma flatMap_range_single {α : Type} {f : ℕ → List α} {n i : ℕ} (hi : i < n)
    (hz : ∀ j, j < n → j ≠ i → f j = []) : (List.range n).flatMap f = f i := by
  induction n with
  | zero => omega
  | succ m ih =>
      rw [List.range_succ, List.flatMap_append]
      have hm : [m].flatMap f = f m := by simp
      rcases Nat.lt_or_ge i m with h | h
      · rw [ih h fun j hj hne => hz j (by omega) hne, hm,
          hz m (by omega) (by omega)]
        simp
      · have him : i = m := by omega
        subst him
        rw [hm, List.flatMap_eq_nil_iff.mpr fun j hj =>
          hz j (by simp at hj; omega) (by simp at hj; omega)]
        simp

lemma length_flatMap_sum {α β : Type} (l : List α) (f : α → List β) :
    (l.flatMap f).length = (l.map fun a => (f a).length).sum := by
  induction l with
  | nil => rfl
  | cons x xs ih => simp [List.flatMap_cons, ih]

lemma sum_map_ite_three {l : List ℕ} (p : ℕ → Prop) [DecidablePred p] :
    (l.map fun i => if p i then 3 else 0).sum =
      3 * ((l.filter fun i => p i).length) := by
  induction l with
  | nil => simp
  | cons x xs ih =>
      by_cases h : p x
      · simp [h, ih]
        omega
      · simp [h, ih]

/-! ### Evaluating the inner loops of `create_polarity_operator` -/

lemma singleBlock_eq (S : STensor) (lam : ℚ) (n i : ℕ) :
    (paulis.filterMap fun p =>
        let coeff := lam * S.entry (i + 1) (i + 1)
        if threshold < |coeff| then some (singleLabel n i p, coeff) else none) =
      if threshold < |lam * S.entry (i + 1) (i + 1)| then
        [(singleLabel n i 'X', lam * S.entry (i + 1) (i + 1)),
         (singleLabel n i 'Y', lam * S.entry (i + 1) (i + 1)),
         (singleLabel n i 'Z', lam * S.entry (i + 1) (i + 1))]
      else [] := by
  by_cases h : threshold < |lam * S.entry (i + 1) (i + 1)| <;>
    simp [paulis, List.filterMap_cons, h]

lemma mem_singleTerms {S : STensor} {lam : ℚ} {n : ℕ} {t : PauliTerm} :
    t ∈ singleTerms S lam n ↔
      ∃ i p, i < n ∧ p ∈ paulis ∧ threshold < |lam * S.entry (i + 1) (i + 1)| ∧
        t = (singleLabel n i p, lam * S.entry (i + 1) (i + 1)) := by
  constructor
  · intro ht
    rw [singleTerms] at ht
    rcases List.mem_flatMap.mp ht with ⟨i, hi, hmem⟩
    rcases List.mem_filterMap.mp hmem with ⟨p, hp, hsome⟩
    simp only [Option.ite_none_right_eq_some, Option.some.injEq] at hsome
    exact ⟨i, p, List.mem_range.mp hi, hp, hsome.1, hsome.2.symm⟩
  · rintro ⟨i, p, hi, hp, hc, rfl⟩
    rw [singleTerms]
    refine List.mem_flatMap.mpr ⟨i, List.mem_range.mpr hi, ?_⟩
    refine List.mem_filterMap.mpr ⟨p, hp, ?_⟩
    simp [hc]

lemma mem_pairTerms {S : STensor} {lam : ℚ} {n : ℕ} {t : PauliTerm} :
    t ∈ pairTerms S lam n ↔
      ∃ i j, i < j ∧ j < n ∧ threshold < |lam * S.entry (i + 1) (j + 1)| ∧
        t = (pairLabel n i j, lam * S.entry (i + 1) (j + 1)) := by
  constructor
  · intro ht
    rw [pairTerms] at ht
    rcases List.mem_flatMap.mp ht with ⟨i, hi, hmem⟩
    rcases List.mem_filterMap.mp hmem with ⟨j, hj, hsome⟩
    simp only [Option.ite_none_right_eq_some, Option.some.injEq] at hsome
    rcases List.mem_range'_1.mp hj with ⟨hj1, hj2⟩
    have hin : i < n := List.mem_range.mp hi
    exact ⟨i, j, by omega, by omega, hsome.1, hsome.2.symm⟩
  · rintro ⟨i, j, hij, hj, hc, rfl⟩
    rw [pairTerms]
    refine List.mem_flatMap.mpr ⟨i, List.mem_range.mpr (by omega), ?_⟩
    refine List.mem_filterMap.mpr ⟨j, List.mem_range'_1.mpr ⟨by omega, by omega⟩, ?_⟩
    simp [hc]

lemma singleTerms_length {S : STensor} {lam : ℚ} {n : ℕ} :
    (singleTerms S lam n).length =
      3 * ((List.range n).filter fun i =>
        threshold < |lam * S.entry (i + 1) (i + 1)|).length := by
  rw [singleTerms, length_flatMap_sum]
  have hmap : ((List.range n).map fun i =>
      (paulis.filterMap fun p =>
        let coeff := lam * S.entry (i + 1) (i + 1)
        if threshold < |coeff| then some (singleLabel n i p, coeff) else none).length) =
      (List.range n).map fun i =>
        if threshold < |lam * S.entry (i + 1) (i + 1)| then 3 else 0 := by
    apply List.map_congr_left
    intro i _
    rw [singleBlock_eq]
    by_cases h : threshold < |lam * S.entry (i + 1) (i + 1)| <;> simp [h]
  rw [hmap, sum_map_ite_three]

lemma singleTerms_eq_nil_iff {S : STensor} {lam : ℚ} {n : ℕ} :
    singleTerms S lam n = [] ↔
      ((List.range n).filter fun i =>
        threshold < |lam * S.entry (i + 1) (i + 1)|) = [] := by
  rw [← List.length_eq_zero, ← List.length_eq_zero, singleTerms_length]
  omega

lemma pairTerms_eq_nil {S : STensor} {lam : ℚ} {n : ℕ}
    (hoff : ∀ i j, i < j → j < n → |lam * S.entry (i + 1) (j + 1)| ≤ threshold) :
    pairTerms S lam n = [] := by
  rcases h : pairTerms S lam n with _ | ⟨t, rest⟩
  · rfl
  · exfalso
    have ht : t ∈ pairTerms S lam n := by rw [h]; exact List.mem_cons_self _ _
    rcases mem_pairTerms.mp ht with ⟨i, j, hij, hj, hc, -⟩
    exact absurd hc (not_lt.mpr (hoff i j hij hj))

lemma mem_singleLabel {c p : Char} {n i : ℕ} (h : c ∈ singleLabel n i p) :
    c = 'I' ∨ c = p := by
  simp only [singleLabel, List.mem_append, List.mem_cons, List.mem_replicate] at h
  tauto

lemma mem_pairLabel {c : Char} {n i j : ℕ} (h : c ∈ pairLabel n i j) :
    c = 'I' ∨ c = 'Z' := by
  simp only [pairLabel, List.mem_append, List.mem_cons, List.mem_replicate] at h
  tauto

lemma singleTerms_congr {S S' : STensor} {lam : ℚ} {n : ℕ}
    (h : ∀ i, i < n → S.entry (i + 1) (i + 1) = S'.entry (i + 1) (i + 1)) :
    singleTerms S lam n = singleTerms S' lam n := by
  rw [singleTerms, singleTerms]
  apply flatMap_congr_mem
  intro i hi
  have hie := h i (List.mem_range.mp hi)
  simp only [hie]

lemma pairTerms_congr {S S' : STensor} {lam : ℚ} {n : ℕ}
    (h : ∀ i j, i < j → j < n → S.entry (i + 1) (j + 1) = S'.entry (i + 1) (j + 1)) :
    pairTerms S lam n = pairTerms S' lam n := by
  rw [pairTerms, pairTerms]
  apply flatMap_congr_mem
  intro i hi
  apply List.filterMap_congr
  intro j hj
  rcases List.mem_range'_1.mp hj with ⟨hj1, hj2⟩
  have hin : i < n := List.mem_range.mp hi
  have hje := h i j (by omega) (by omega)
  simp only [hje]

/-- On a valid (square, size ≥ 2) tensor, `create_polarity_operator` reduces
to the sentinel-or-store branch over the built term list. -/
lemma create_polarity_operator_valid {st : AnalyzerState} {S : STensor}
    {lam : ℚ} (hsq : S.dim0 = S.dim1) (h2 : 2 ≤ S.dim0) :
    create_polarity_operator st S lam =
      if singleTerms S lam (S.dim0 - 1) ++ pairTerms S lam (S.dim0 - 1) = [] then
        (.ok [(List.replicate (S.dim0 - 1) 'I', 0)], st)
      else
        (.ok (singleTerms S lam (S.dim0 - 1) ++ pairTerms S lam (S.dim0 - 1)),
          { st with
              current_operator :=
                some (singleTerms S lam (S.dim0 - 1) ++
                  pairTerms S lam (S.dim0 - 1)) }) := by
  simp only [create_polarity_operator]
  rw [if_neg (by omega : ¬ S.dim0 ≠ S.dim1), if_neg (by omega : ¬ S.dim0 < 2)]

lemma singleLabel_getElem_self (n i : ℕ) (p : Char) :
    (singleLabel n i p)[i]?.getD 'I' = p := by
  rw [← List.getD_eq_getElem?_getD]
  exact singleLabel_getD_self n i p

lemma singleLabel_getElem_ne {k i : ℕ} (hne : k ≠ i) (n : ℕ) (p : Char) :
    (singleLabel n i p)[k]?.getD 'I' = 'I' := by
  rw [← List.getD_eq_getElem?_getD]
  exact singleLabel_getD_ne hne n p

/-! ### Evaluation of the builders on the concrete tensors -/

lemma diag2_terms_eval :
    singleTerms diagTensor2 1 (diagTensor2.dim0 - 1) ++
      pairTerms diagTensor2 1 (diagTensor2.dim0 - 1) =
      [(['X'], 1), (['Y'], 1), (['Z'], 1)] := by
  norm_num [singleTerms, pairTerms, diagTensor2, paulis, threshold,
    List.range_succ, List.filterMap_cons, singleLabel]

lemma zero2_terms_eval :
    singleTerms zeroTensor2 1 (zeroTensor2.dim0 - 1) ++
      pairTerms zeroTensor2 1 (zeroTensor2.dim0 - 1) = [] := by
  norm_num [singleTerms, pairTerms, zeroTensor2, paulis, threshold,
    List.range_succ, List.filterMap_cons]

lemma off3_terms_eval :
    singleTerms offTensor3 1 (offTensor3.dim0 - 1) ++
      pairTerms offTensor3 1 (offTensor3.dim0 - 1) = [(['Z', 'Z'], 1)] := by
  norm_num [singleTerms, pairTerms, offTensor3, paulis, threshold,
    List.range_succ, List.filterMap_cons, singleLabel, pairLabel, List.range']

/-! ### Claim theorems -/

/-- C3: `create_polarity_operator` raises `ValueError` on a non-square tensor
and on a tensor of size < 2, in either case before producing any terms and
without altering the analyzer state; on a square tensor of size ≥ 2 it does
not raise. -/
theorem C3_tensor_validation (st : AnalyzerState) (S : STensor) (lam : ℚ) :
    (S.dim0 ≠ S.dim1 →
      create_polarity_operator st S lam = (.error (.valueError squareMsg), st)) ∧
    (S.dim0 = S.dim1 → S.dim0 < 2 →
      create_polarity_operator st S lam = (.error (.valueError sizeMsg), st)) ∧
    (S.dim0 < 2 →
      (create_polarity_operator st S lam).1.toOption = none ∧
        (create_polarity_operator st S lam).2 = st) ∧
    (S.dim0 = S.dim1 → 2 ≤ S.dim0 →
      (create_polarity_operator st S lam).1.toOption.isSome = true) := by
  refine ⟨?_, ?_, ?_, ?_⟩
  · intro h
    simp only [create_polarity_operator]
    rw [if_pos h]
  · intro hsq h
    simp only [create_polarity_operator]
    rw [if_neg (by omega : ¬ S.dim0 ≠ S.dim1), if_pos h]
  · intro h
    by_cases hsq : S.dim0 = S.dim1
    · simp only [create_polarity_operator]
      rw [if_neg (by omega : ¬ S.dim0 ≠ S.dim1), if_pos h]
      exact ⟨rfl, rfl⟩
    · simp only [create_polarity_operator]
      rw [if_pos hsq]
      exact ⟨rfl, rfl⟩
  · intro hsq h2
    rw [create_polarity_operator_valid hsq h2]
    split <;> rfl

/-- Witness for C3 on concrete tensors: a 1×2 tensor raises the
square-matrix error, a 1×1 tensor raises the size error, and a valid 2×2
tensor succeeds. -/
theorem C3_witness :
    create_polarity_operator initState rectTensor 1 =
      (.error (.valueError squareMsg), initState) ∧
    create_polarity_operator initState tinyTensor 1 =
      (.error (.valueError sizeMsg), initState) ∧
    (create_polarity_operator initState diagTensor2 1).1.toOption.isSome = true :=
  ⟨(C3_tensor_validation initState rectTensor 1).1 (by decide),
   (C3_tensor_validation initState tinyTensor 1).2.1 rfl (by decide),
   (C3_tensor_validation initState diagTensor2 1).2.2.2 rfl (by decide)⟩

/-- C8: `create_protein_quantum_circuit` raises `ValueError` for a qubit
count outside `[2, 10]`, leaving the state (in particular `current_circuit`)
unchanged, and returns a circuit without raising for a count inside the
range. -/
theorem C8_circuit_validation (st : AnalyzerState) (nq : ℤ) (cg : Bool) :
    (¬ (2 ≤ nq ∧ nq ≤ 10) →
      create_protein_quantum_circuit st nq cg =
        (.error (.valueError qubitRangeMsg), st)) ∧
    (2 ≤ nq → nq ≤ 10 →
      (create_protein_quantum_circuit st nq cg).1.toOption.isSome = true) := by
  constructor
  · intro h
    simp only [create_protein_quantum_circuit]
    rw [if_pos h]
  · intro h1 h2
    simp only [create_protein_quantum_circuit]
    rw [if_neg (not_not.mpr ⟨h1, h2⟩)]
    rfl

/-- Witness for C8: qubit count 11 raises and leaves the state unchanged;
qubit count 5 succeeds. -/
theorem C8_witness :
    create_protein_quantum_circuit initState 11 true =
      (.error (.valueError qubitRangeMsg), initState) ∧
    (create_protein_quantum_circuit initState 5 true).1.toOption.isSome = true :=
  ⟨(C8_circuit_validation initState 11 true).1 (by omega),
   (C8_circuit_validation initState 5 true).2 (by omega) (by omega)⟩

/-- C2 (amended): `create_polarity_operator` is deterministic (it is a pure
function of its inputs in this embedding), and its only state effect is to
store the built term list in `current_operator` when at least one Pauli term
survives thresholding; `verbose`, `current_circuit` and `results_history`
are always left unchanged, and `current_operator` is either unchanged or set
to the returned term list. -/
theorem C2_state_effects (st : AnalyzerState) (S : STensor) (lam : ℚ) :
    (create_polarity_operator st S lam).2.verbose = st.verbose ∧
    (create_polarity_operator st S lam).2.current_circuit = st.current_circuit ∧
    (create_polarity_operator st S lam).2.results_history = st.results_history ∧
    ((create_polarity_operator st S lam).2.current_operator = st.current_operator ∨
      (create_polarity_operator st S lam).2.current_operator =
        some (singleTerms S lam (S.dim0 - 1) ++ pairTerms S lam (S.dim0 - 1))) := by
  simp only [create_polarity_operator]
  split
  · exact ⟨rfl, rfl, rfl, Or.inl rfl⟩
  · split
    · exact ⟨rfl, rfl, rfl, Or.inl rfl⟩
    · split
      · exact ⟨rfl, rfl, rfl, Or.inl rfl⟩
      · exact ⟨rfl, rfl, rfl, Or.inr rfl⟩

/-- Counterexample to C2 as stated: on the 2×2 tensor with `S[1][1] = 1` the
call does have a side effect — it overwrites `current_operator`, so the
analyzer state after the call differs from the state before it. -/
theorem C2_counterexample :
    (create_polarity_operator initState diagTensor2 1).2 ≠ initState := by
  rw [create_polarity_operator_valid rfl (by decide),
    if_neg (by rw [diag2_terms_eval]; simp)]
  simp [initState]

/-- C10: when no term survives thresholding, `create_polarity_operator`
returns the zero-identity sentinel and leaves the state — in particular
`current_operator` — untouched; `current_operator` is overwritten exactly
when at least one term survives, and then holds the returned list. -/
theorem C10_sentinel_frame (st : AnalyzerState) (S : STensor) (lam : ℚ)
    (hsq : S.dim0 = S.dim1) (h2 : 2 ≤ S.dim0) :
    (singleTerms S lam (S.dim0 - 1) ++ pairTerms S lam (S.dim0 - 1) = [] →
      create_polarity_operator st S lam =
        (.ok [(List.replicate (S.dim0 - 1) 'I', 0)], st)) ∧
    (singleTerms S lam (S.dim0 - 1) ++ pairTerms S lam (S.dim0 - 1) ≠ [] →
      (create_polarity_operator st S lam).2.current_operator =
        some (singleTerms S lam (S.dim0 - 1) ++ pairTerms S lam (S.dim0 - 1))) := by
  rw [create_polarity_operator_valid hsq h2]
  constructor
  · intro h
    rw [if_pos h]
  · intro h
    rw [if_neg h]

/-- Witness for C10: the all-zero 2×2 tensor takes the sentinel path and the
state is returned unchanged; the 2×2 tensor with `S[1][1] = 1` takes the
store path and `current_operator` receives the built list. -/
theorem C10_witness :
    create_polarity_operator initState zeroTensor2 1 =
      (.ok [(List.replicate (zeroTensor2.dim0 - 1) 'I', 0)], initState) ∧
    (create_polarity_operator initState diagTensor2 1).2.current_operator =
      some (singleTerms diagTensor2 1 (diagTensor2.dim0 - 1) ++
        pairTerms diagTensor2 1 (diagTensor2.dim0 - 1)) :=
  ⟨(C10_sentinel_frame initState zeroTensor2 1 rfl (by decide)).1
      zero2_terms_eval,
   (C10_sentinel_frame initState diagTensor2 1 rfl (by decide)).2
      (by rw [diag2_terms_eval]; simp)⟩

/-- C6: if every submatrix coefficient (diagonal and upper off-diagonal) has
magnitude at most `1e-9`, `create_polarity_operator` returns normally with
exactly one term — the all-identity label over `n` qubits with coefficient
zero — and does not touch the state. -/
theorem C6_zero_sentinel (st : AnalyzerState) (S : STensor) (lam : ℚ)
    (hsq : S.dim0 = S.dim1) (h2 : 2 ≤ S.dim0)
    (hall : ∀ a b, 1 ≤ a → a ≤ b → b < S.dim0 → |lam * S.entry a b| ≤ threshold) :
    create_polarity_operator st S lam =
      (.ok [(List.replicate (S.dim0 - 1) 'I', 0)], st) := by
  rw [create_polarity_operator_valid hsq h2, if_pos]
  rw [List.append_eq_nil]
  constructor
  · rw [singleTerms_eq_nil_iff, List.filter_eq_nil_iff]
    intro i hi
    have hin : i < S.dim0 - 1 := List.mem_range.mp hi
    have hle := hall (i + 1) (i + 1) (by omega) le_rfl (by omega)
    simp only [decide_eq_true_eq]
    exact not_lt.mpr hle
  · apply pairTerms_eq_nil
    intro i j hij hj
    exact hall (i + 1) (j + 1) (by omega) (by omega) (by omega)

/-- Witness for C6: the all-zero 2×2 tensor yields the sentinel
`[('I', 0)]`. -/
theorem C6_witness :
    create_polarity_operator initState zeroTensor2 1 =
      (.ok [(List.replicate (zeroTensor2.dim0 - 1) 'I', 0)], initState) :=
  C6_zero_sentinel initState zeroTensor2 1 rfl (by decide)
    (fun a b _ _ _ => by norm_num [zeroTensor2, threshold])

/-- Full evaluation of the builder on `diagTensor2`. -/
lemma diag2_call_eval :
    create_polarity_operator initState diagTensor2 1 =
      (.ok [(['X'], 1), (['Y'], 1), (['Z'], 1)],
        { initState with
            current_operator := some [(['X'], 1), (['Y'], 1), (['Z'], 1)] }) := by
  rw [create_polarity_operator_valid rfl (by decide),
    if_neg (by rw [diag2_terms_eval]; simp), diag2_terms_eval]

/-- Full evaluation of the builder on `offTensor3`. -/
lemma off3_call_eval :
    create_polarity_operator initState offTensor3 1 =
      (.ok [(['Z', 'Z'], 1)],
        { initState with current_operator := some [(['Z', 'Z'], 1)] }) := by
  rw [create_polarity_operator_valid rfl (by decide),
    if_neg (by rw [off3_terms_eval]; simp), off3_terms_eval]

/-- C4: every term returned on a square k×k tensor, k ≥ 2, has a label of
length exactly k−1 whose characters are all drawn from I, X, Y, Z. -/
theorem C4_label_shape (st : AnalyzerState) (S : STensor) (lam : ℚ) (k : ℕ)
    (h0 : S.dim0 = k) (h1 : S.dim1 = k) (h2 : 2 ≤ k) :
    ∀ terms, (create_polarity_operator st S lam).1 = .ok terms →
      ∀ t ∈ terms, t.1.length = k - 1 ∧
        ∀ c ∈ t.1, c = 'I' ∨ c = 'X' ∨ c = 'Y' ∨ c = 'Z' := by
  intro terms hok t ht
  rw [create_polarity_operator_valid (by omega) (by omega)] at hok
  by_cases he : singleTerms S lam (S.dim0 - 1) ++ pairTerms S lam (S.dim0 - 1) = []
  · rw [if_pos he] at hok
    have hterm : terms = [(List.replicate (S.dim0 - 1) 'I', 0)] :=
      (Except.ok.inj hok).symm
    subst hterm
    rcases List.mem_singleton.mp ht with rfl
    refine ⟨by simp [h0], ?_⟩
    intro c hc
    exact Or.inl (List.eq_of_mem_replicate hc)
  · rw [if_neg he] at hok
    have hterm : terms = singleTerms S lam (S.dim0 - 1) ++ pairTerms S lam (S.dim0 - 1) :=
      (Except.ok.inj hok).symm
    subst hterm
    rcases List.mem_append.mp ht with hs | hp
    · rcases mem_singleTerms.mp hs with ⟨i, p, hi, hpp, -, rfl⟩
      refine ⟨by rw [singleLabel_length hi, h0], ?_⟩
      intro c hc
      rcases mem_singleLabel hc with rfl | rfl
      · exact Or.inl rfl
      · simp only [paulis, List.mem_cons, List.not_mem_nil, or_false] at hpp
        tauto
    · rcases mem_pairTerms.mp hp with ⟨i, j, hij, hj, -, rfl⟩
      refine ⟨by rw [pairLabel_length hij hj, h0], ?_⟩
      intro c hc
      rcases mem_pairLabel hc with rfl | rfl
      · exact Or.inl rfl
      · tauto

/-- Witness for C4 on `diagTensor2` (k = 2): the X-term has label length 1
and its character is in the Pauli alphabet. -/
theorem C4_witness :
    (((['X'] : List Char), (1 : ℚ)).1.length = 2 - 1) ∧
      ('X' = 'I' ∨ 'X' = 'X' ∨ 'X' = 'Y' ∨ 'X' = 'Z') :=
  have h := C4_label_shape initState diagTensor2 1 2 rfl rfl (by omega)
    [(['X'], 1), (['Y'], 1), (['Z'], 1)] (by rw [diag2_call_eval])
    (['X'], 1) (by simp)
  ⟨h.1, h.2 'X' (by simp)⟩

/-- C5: the returned term list depends only on λ and the submatrix of S
excluding the first row and column — tensors of equal shape agreeing on all
entries with both indices ≥ 1 produce equal results, from any two analyzer
states. -/
theorem C5_submatrix_only (st st' : AnalyzerState) (S S' : STensor) (lam : ℚ)
    (hd0 : S.dim0 = S'.dim0) (hd1 : S.dim1 = S'.dim1)
    (hsq : S.dim0 = S.dim1) (h2 : 2 ≤ S.dim0)
    (hagree : ∀ a b, 1 ≤ a → 1 ≤ b → a < S.dim0 → b < S.dim1 →
      S.entry a b = S'.entry a b) :
    (create_polarity_operator st S lam).1 = (create_polarity_operator st' S' lam).1 := by
  have hs : singleTerms S lam (S.dim0 - 1) = singleTerms S' lam (S'.dim0 - 1) := by
    rw [← hd0]
    exact singleTerms_congr fun i hi =>
      hagree (i + 1) (i + 1) (by omega) (by omega) (by omega) (by omega)
  have hp : pairTerms S lam (S.dim0 - 1) = pairTerms S' lam (S'.dim0 - 1) := by
    rw [← hd0]
    exact pairTerms_congr fun i j hij hj =>
      hagree (i + 1) (j + 1) (by omega) (by omega) (by omega) (by omega)
  rw [create_polarity_operator_valid hsq h2,
    create_polarity_operator_valid (by omega) (by omega), ← hs, ← hp, ← hd0]
  split
  · rfl
  · rfl

/-- Concrete 2×2 tensor agreeing with `diagTensor2` on the submatrix but
with different first row and column. -/
def diagTensor2Alt : STensor :=
  ⟨2, 2, fun a b => if a = 1 ∧ b = 1 then 1 else 7⟩

/-- Witness for C5: `diagTensor2` and `diagTensor2Alt` differ only in the
first row/column and produce the same term list. -/
theorem C5_witness :
    (create_polarity_operator initState diagTensor2 1).1 =
      (create_polarity_operator initState diagTensor2Alt 1).1 :=
  C5_submatrix_only initState initState diagTensor2 diagTensor2Alt 1 rfl rfl rfl
    (by decide)
    (fun a b h1 _ ha hb => by
      have ha2 : a < 2 := ha
      have hb2 : b < 2 := hb
      have hae : a = 1 := by omega
      have hbe : b = 1 := by omega
      subst hae
      subst hbe
      norm_num [diagTensor2, diagTensor2Alt])

/-- Counterexample to C1 as stated: on the 2×2 tensor with `S[1][1] = 1` and
λ = 1 all off-diagonal submatrix coefficients are (vacuously) below the
threshold and exactly one qubit index has an above-threshold diagonal
coefficient, yet the builder returns three single-qubit terms, not one. -/
theorem C1_counterexample :
    ((List.range (diagTensor2.dim0 - 1)).filter fun i =>
        threshold < |(1 : ℚ) * diagTensor2.entry (i + 1) (i + 1)|).length = 1 ∧
    (create_polarity_operator initState diagTensor2 1).1.map List.length =
      .ok 3 := by
  constructor
  · norm_num [diagTensor2, threshold, List.range_succ]
  · rw [diag2_call_eval]
    rfl

/-- C1 (amended): for a square tensor whose off-diagonal submatrix
coefficients are all below the threshold, the builder produces exactly THREE
single-qubit terms per qubit index whose diagonal coefficient is above the
threshold (one per Pauli axis), and the zero-identity sentinel when no
diagonal coefficient is above it. -/
theorem C1_three_per_index (st : AnalyzerState) (S : STensor) (lam : ℚ)
    (hsq : S.dim0 = S.dim1) (h2 : 2 ≤ S.dim0)
    (hoff : ∀ i j, i < S.dim0 - 1 → j < S.dim0 - 1 → i ≠ j →
      |lam * S.entry (i + 1) (j + 1)| ≤ threshold) :
    ∀ terms, (create_polarity_operator st S lam).1 = .ok terms →
      (((List.range (S.dim0 - 1)).filter fun i =>
          threshold < |lam * S.entry (i + 1) (i + 1)|) = [] →
        terms = [(List.replicate (S.dim0 - 1) 'I', 0)]) ∧
      (((List.range (S.dim0 - 1)).filter fun i =>
          threshold < |lam * S.entry (i + 1) (i + 1)|) ≠ [] →
        terms.length = 3 * ((List.range (S.dim0 - 1)).filter fun i =>
          threshold < |lam * S.entry (i + 1) (i + 1)|).length) := by
  intro terms hok
  have hpairs : pairTerms S lam (S.dim0 - 1) = [] :=
    pairTerms_eq_nil fun i j hij hj => hoff i j (by omega) hj (by omega)
  rw [create_polarity_operator_valid hsq h2] at hok
  constructor
  · intro hf
    have hsingle : singleTerms S lam (S.dim0 - 1) = [] :=
      singleTerms_eq_nil_iff.mpr hf
    rw [if_pos (by rw [hsingle, hpairs]; rfl)] at hok
    exact (Except.ok.inj hok).symm
  · intro hf
    have hsingle : singleTerms S lam (S.dim0 - 1) ≠ [] := fun hcon =>
      hf (singleTerms_eq_nil_iff.mp hcon)
    rw [if_neg (fun hcon => hsingle (List.append_eq_nil.mp hcon).1)] at hok
    have hterm : terms = singleTerms S lam (S.dim0 - 1) ++ pairTerms S lam (S.dim0 - 1) :=
      (Except.ok.inj hok).symm
    rw [hterm, hpairs, List.append_nil, singleTerms_length]

/-- Witness for C1 (amended) on `diagTensor2`: one diagonal index is above
threshold and the returned list has length 3 · 1. -/
theorem C1_witness :
    ([((['X'] : List Char), (1 : ℚ)), (['Y'], 1), (['Z'], 1)].length =
      3 * ((List.range (diagTensor2.dim0 - 1)).filter fun i =>
        threshold < |(1 : ℚ) * diagTensor2.entry (i + 1) (i + 1)|).length) :=
  (C1_three_per_index initState diagTensor2 1 rfl (by decide)
      (fun i j hi hj hne => by
        have hi1 : i < 1 := hi
        have hj1 : j < 1 := hj
        exact absurd (by omega : i = j) hne)
      [(['X'], 1), (['Y'], 1), (['Z'], 1)] (by rw [diag2_call_eval])).2
    (by norm_num [diagTensor2, threshold, List.range_succ])

/-- C9: for each qubit index `i` whose diagonal coefficient is above the
threshold, the builder emits exactly three single-qubit terms at position
`i` — one each for X, Y and Z — all carrying the identical coefficient
`λ·S[i+1][i+1]`. -/
theorem C9_three_axes (st : AnalyzerState) (S : STensor) (lam : ℚ) (n i : ℕ)
    (h0 : S.dim0 = n + 1) (h1 : S.dim1 = n + 1) (hn : 1 ≤ n) (hi : i < n)
    (hc : threshold < |lam * S.entry (i + 1) (i + 1)|) :
    ∀ terms, (create_polarity_operator st S lam).1 = .ok terms →
      terms.filter (fun t => isSingleAt i t.1) =
        [(singleLabel n i 'X', lam * S.entry (i + 1) (i + 1)),
         (singleLabel n i 'Y', lam * S.entry (i + 1) (i + 1)),
         (singleLabel n i 'Z', lam * S.entry (i + 1) (i + 1))] := by
  intro terms hok
  have hn1 : S.dim0 - 1 = n := by omega
  rw [create_polarity_operator_valid (by omega) (by omega), hn1] at hok
  have hmem : (singleLabel n i 'X', lam * S.entry (i + 1) (i + 1)) ∈
      singleTerms S lam n :=
    mem_singleTerms.mpr ⟨i, 'X', hi, by simp [paulis], hc, rfl⟩
  have hne : singleTerms S lam n ++ pairTerms S lam n ≠ [] := by
    intro hcon
    rw [(List.append_eq_nil.mp hcon).1] at hmem
    exact List.not_mem_nil _ hmem
  rw [if_neg hne] at hok
  have hterm : terms = singleTerms S lam n ++ pairTerms S lam n :=
    (Except.ok.inj hok).symm
  subst hterm
  rw [List.filter_append]
  have hpf : (pairTerms S lam n).filter (fun t => isSingleAt i t.1) = [] := by
    rw [List.filter_eq_nil_iff]
    intro t ht
    rcases mem_pairTerms.mp ht with ⟨a, b, hab, hbn, -, rfl⟩
    simp [isSingleAt, countNonI_pairLabel]
  rw [hpf, List.append_nil, singleTerms, List.filter_flatMap]
  have hz : ∀ j, j < n → j ≠ i →
      ((paulis.filterMap fun p =>
          let coeff := lam * S.entry (j + 1) (j + 1)
          if threshold < |coeff| then some (singleLabel n j p, coeff) else none).filter
        fun t => isSingleAt i t.1) = [] := by
    intro j hj hne'
    rw [singleBlock_eq]
    by_cases hcj : threshold < |lam * S.entry (j + 1) (j + 1)|
    · rw [if_pos hcj]
      simp [isSingleAt, singleLabel_getElem_ne (Ne.symm hne')]
    · rw [if_neg hcj]
      rfl
  rw [flatMap_range_single hi hz, singleBlock_eq, if_pos hc]
  simp [isSingleAt, singleLabel_getElem_self, countNonI_singleLabel]

/-- Witness for C9 on `diagTensor2` (n = 1, i = 0): the filter of the
returned list at position 0 is exactly the X, Y, Z triple with the shared
coefficient. -/
theorem C9_witness :
    ([((['X'] : List Char), (1 : ℚ)), (['Y'], 1), (['Z'], 1)].filter
        (fun t => isSingleAt 0 t.1)) =
      [(singleLabel 1 0 'X', 1 * diagTensor2.entry (0 + 1) (0 + 1)),
       (singleLabel 1 0 'Y', 1 * diagTensor2.entry (0 + 1) (0 + 1)),
       (singleLabel 1 0 'Z', 1 * diagTensor2.entry (0 + 1) (0 + 1))] :=
  C9_three_axes initState diagTensor2 1 1 0 rfl rfl le_rfl (by omega)
    (by norm_num [diagTensor2, threshold])
    [(['X'], 1), (['Y'], 1), (['Z'], 1)] (by rw [diag2_call_eval])

/-- C7: a two-qubit term for the ordered pair i < j is emitted iff the
coefficient `λ·S[i+1][j+1]` is above the threshold, and then it is the term
with Z at positions i and j, identity elsewhere, and that coefficient; for a
2×2 tensor (n = 1) no term acting on two qubits is ever produced. -/
theorem C7_pair_terms (st : AnalyzerState) (S : STensor) (lam : ℚ) (n : ℕ)
    (h0 : S.dim0 = n + 1) (h1 : S.dim1 = n + 1) (hn : 1 ≤ n) :
    ∀ terms, (create_polarity_operator st S lam).1 = .ok terms →
      (∀ i j, i < j → j < n →
        ((pairLabel n i j, lam * S.entry (i + 1) (j + 1)) ∈ terms ↔
          threshold < |lam * S.entry (i + 1) (j + 1)|)) ∧
      (n = 1 → ∀ t ∈ terms, countNonI t.1 ≤ 1) := by
  intro terms hok
  have hn1 : S.dim0 - 1 = n := by omega
  rw [create_polarity_operator_valid (by omega) (by omega), hn1] at hok
  by_cases he : singleTerms S lam n ++ pairTerms S lam n = []
  · rw [if_pos he] at hok
    have hterm : terms = [(List.replicate n 'I', 0)] := (Except.ok.inj hok).symm
    subst hterm
    constructor
    · intro i j hij hj
      constructor
      · intro hmem
        exfalso
        have heq := List.mem_singleton.mp hmem
        have hlab : pairLabel n i j = List.replicate n 'I' :=
          congrArg Prod.fst heq
        have hcount := congrArg countNonI hlab
        rw [countNonI_pairLabel, countNonI_replicate] at hcount
        omega
      · intro habove
        exfalso
        have hmem : (pairLabel n i j, lam * S.entry (i + 1) (j + 1)) ∈
            pairTerms S lam n :=
          mem_pairTerms.mpr ⟨i, j, hij, hj, habove, rfl⟩
        rw [(List.append_eq_nil.mp he).2] at hmem
        exact List.not_mem_nil _ hmem
    · intro hone t ht
      have heq := List.mem_singleton.mp ht
      rw [heq]
      rw [countNonI_replicate]
      omega
  · rw [if_neg he] at hok
    have hterm : terms = singleTerms S lam n ++ pairTerms S lam n :=
      (Except.ok.inj hok).symm
    subst hterm
    constructor
    · intro i j hij hj
      constructor
      · intro hmem
        rcases List.mem_append.mp hmem with hs | hp
        · exfalso
          rcases mem_singleTerms.mp hs with ⟨a, p, ha, hpp, -, heq⟩
          have hlab : pairLabel n i j = singleLabel n a p :=
            congrArg Prod.fst heq
          have hpI : p ≠ 'I' := by
            simp only [paulis, List.mem_cons, List.not_mem_nil, or_false] at hpp
            rcases hpp with rfl | rfl | rfl
            · decide
            · decide
            · decide
          have hcount := congrArg countNonI hlab
          rw [countNonI_pairLabel, countNonI_singleLabel hpI] at hcount
          omega
        · rcases mem_pairTerms.mp hp with ⟨a, b, hab, hbn, hcc, heq⟩
          have hlab : pairLabel n i j = pairLabel n a b := congrArg Prod.fst heq
          rcases pairLabel_inj hij hj hab hbn hlab with ⟨rfl, rfl⟩
          exact hcc
      · intro habove
        exact List.mem_append_right _
          (mem_pairTerms.mpr ⟨i, j, hij, hj, habove, rfl⟩)
    · intro hone t ht
      rcases List.mem_append.mp ht with hs | hp
      · rcases mem_singleTerms.mp hs with ⟨a, p, ha, hpp, -, rfl⟩
        have hpI : p ≠ 'I' := by
          simp only [paulis, List.mem_cons, List.not_mem_nil, or_false] at hpp
          rcases hpp with rfl | rfl | rfl
          · decide
          · decide
          · decide
        rw [countNonI_singleLabel hpI]
      · rcases mem_pairTerms.mp hp with ⟨a, b, hab, hbn, -, rfl⟩
        exact absurd hbn (by omega)

/-- Witness for C7 on `offTensor3` (n = 2): the ZZ term for the pair (0, 1)
is present iff its coefficient `1·S[1][2] = 1` is above the threshold. -/
theorem C7_witness :
    ((pairLabel 2 0 1, (1 : ℚ) * offTensor3.entry (0 + 1) (1 + 1)) ∈
        ([((['Z', 'Z'] : List Char), (1 : ℚ))] : List PauliTerm)) ↔
      threshold < |(1 : ℚ) * offTensor3.entry (0 + 1) (1 + 1)| :=
  (C7_pair_terms initState offTensor3 1 2 rfl rfl (by omega)
      [(['Z', 'Z'], 1)] (by rw [off3_call_eval])).1 0 1 (by omega) (by omega)
